import Mathlib

/-!
Shallow embedding of the A/B-test simulation core
(`src/ab_test_task_1.py` and `src/retention.py`).

Real-valued quantities (Python floats) are modelled by `ℚ` so that
arithmetic is exact and every definition is executable.  Python
exceptions (`IndexError` from out-of-range list access, `ValueError`
from `max`/`min` on an empty sequence, `AssertionError`, missing
`known_days[-2]`) are modelled by `Option`: `none` means the call
raises instead of returning a value.  A Python `dict` of retention
points is modelled by an association list `List (ℚ × ℚ)` whose keys
are pairwise distinct (`Nodup` hypotheses state that where needed).
-/

namespace VertigoCase

/-- `VariantConfig` dataclass from `ab_test_task_1.py`. -/
structure VariantConfig where
  name : String
  base_purchase_rate : ℚ
  ecpm : ℚ
  ad_impressions_per_dau : ℚ

/-- `simulate_dau(daily_installs, retention_fn)`: for each calendar day
`current_day` in `1..days`, sums `installs[install_day-1] *
retention_fn(current_day - install_day + 1)` over `install_day` in
`1..current_day`.  Here the 0-based index `dayIdx = current_day - 1`
runs over `List.range days` and `s = install_day - 1` over
`List.range (dayIdx + 1)`, so the age is `dayIdx + 1 - s`. -/
def simulate_dau (daily_installs : List ℚ) (retention_fn : ℕ → ℚ) : List ℚ :=
  (List.range daily_installs.length).map (fun dayIdx =>
    ((List.range (dayIdx + 1)).map (fun s =>
      daily_installs.getD s 0 * retention_fn (dayIdx + 1 - s))).sum)

/-- The inner loop of `combine_sources`: `day_sum = 0.0` then
`day_sum += source[day_idx]` for each source; `source[day_idx]` raises
`IndexError` (`none`) when `day_idx` is out of range. -/
def day_sum (sources : List (List ℚ)) (day_idx : ℕ) : Option ℚ :=
  match sources with
  | [] => some 0
  | source :: rest =>
    match source.get? day_idx, day_sum rest day_idx with
    | some v, some acc => some (v + acc)
    | _, _ => none

/-- The outer loop of `combine_sources`, appending one `day_sum` per
index; the first raised `IndexError` aborts the whole call. -/
def combine_days (sources : List (List ℚ)) : List ℕ → Option (List ℚ)
  | [] => some []
  | i :: is =>
    match day_sum sources i, combine_days sources is with
    | some v, some rest => some (v :: rest)
    | _, _ => none

/-- `combine_sources(*dau_sources)`: returns `[]` for no sources,
otherwise iterates `day_idx` over `range(len(dau_sources[0]))` and sums
`source[day_idx]` over all sources. -/
def combine_sources (dau_sources : List (List ℚ)) : Option (List ℚ) :=
  match dau_sources with
  | [] => some []
  | s0 :: _ => combine_days dau_sources (List.range s0.length)

/-- `simulate_revenue(variant, daily_installs_total, dau_total,
sale_period, sale_boost_abs, arppu)`: asserts the two series have equal
length (`none` models the failed assertion), then per day adds the sale
boost to the purchase rate inside the sale window and returns
`installs * purchase_rate * arppu + dau * ad_impressions_per_dau * ecpm / 1000`. -/
def simulate_revenue (variant : VariantConfig)
    (daily_installs_total dau_total : List ℚ)
    (sale_period : Option (ℤ × ℤ)) (sale_boost_abs : ℚ) (arppu : ℚ) :
    Option (List ℚ) :=
  if daily_installs_total.length = dau_total.length then
    some ((List.range dau_total.length).map (fun (day_idx : ℕ) =>
      let day_number : ℤ := (day_idx : ℤ) + 1
      let base_rate := variant.base_purchase_rate
      let purchase_rate :=
        match sale_period with
        | some (start_day, end_day) =>
          if start_day ≤ day_number ∧ day_number ≤ end_day then
            base_rate + sale_boost_abs
          else base_rate
        | none => base_rate
      let installs := daily_installs_total.getD day_idx 0
      let dau := dau_total.getD day_idx 0
      let iap_revenue := installs * purchase_rate * arppu
      let ad_impressions := dau * variant.ad_impressions_per_dau
      let ad_revenue := ad_impressions * variant.ecpm / 1000
      iap_revenue + ad_revenue))
  else none

/-- Python dict lookup `points[day]` / membership test `day in points`
on an association list (keys of an actual dict are pairwise distinct,
so the first match is the only one). -/
def lookupQ (points : List (ℚ × ℚ)) (day : ℚ) : Option ℚ :=
  match points with
  | [] => none
  | (k, v) :: rest => if k = day then some v else lookupQ rest day

/-- Python `max(...)` over a list of rationals; raises `ValueError`
(`none`) on an empty sequence. -/
def list_max : List ℚ → Option ℚ
  | [] => none
  | x :: rest =>
    match list_max rest with
    | none => some x
    | some m => some (max x m)

/-- Python `min(...)` over a list of rationals; raises `ValueError`
(`none`) on an empty sequence. -/
def list_min : List ℚ → Option ℚ
  | [] => none
  | x :: rest =>
    match list_min rest with
    | none => some x
    | some m => some (min x m)

/-- `linear_retention(day, points)` from `retention.py`:
1.0 for `day <= 1`; the stored value for an exact key; linear
extrapolation through the two largest keys, clamped below at 0, for
`day` beyond the largest key (`known_days[-1]`/`known_days[-2]`, which
raise (`none`) when fewer than one resp. two keys exist); otherwise
linear interpolation between `max(d < day)` and `min(d > day)`. -/
def linear_retention (day : ℚ) (points : List (ℚ × ℚ)) : Option ℚ :=
  if day ≤ 1 then some 1
  else
    match lookupQ points day with
    | some r => some r
    | none =>
      let known_days := List.insertionSort (· ≤ ·) (points.map Prod.fst)
      match known_days.getLast? with
      | none => none
      | some dlast =>
        if dlast < day then
          match known_days.dropLast.getLast? with
          | none => none
          | some d1 =>
            match lookupQ points d1, lookupQ points dlast with
            | some r1, some r2 =>
              some (max 0 (r2 + (r2 - r1) / (dlast - d1) * (day - dlast)))
            | _, _ => none
        else
          match list_max (known_days.filter (fun d => d < day)),
                list_min (known_days.filter (fun d => day < d)) with
          | some prev_day, some next_day =>
            match lookupQ points prev_day, lookupQ points next_day with
            | some r1, some r2 =>
              some (r1 + (r2 - r1) / (next_day - prev_day) * (day - prev_day))
            | _, _ => none
          | _, _ => none

/-! ## Generic helper lemmas -/

lemma range_map_sum (f : ℕ → ℚ) : ∀ n : ℕ,
    ((List.range n).map f).sum = ∑ i in Finset.range n, f i := by
  intro n
  induction n with
  | zero => simp
  | succ n ih =>
    rw [List.range_succ, List.map_append, List.sum_append, Finset.sum_range_succ, ih]
    simp

lemma getD_map_range (f : ℕ → ℚ) {n i : ℕ} (h : i < n) :
    ((List.range n).map f).getD i 0 = f i := by
  rw [List.getD_eq_getElem?_getD, List.getElem?_map, List.getElem?_range h]
  rfl

lemma lookupQ_eq_none {points : List (ℚ × ℚ)} {day : ℚ}
    (h : day ∉ points.map Prod.fst) : lookupQ points day = none := by
  induction points with
  | nil => rfl
  | cons p rest ih =>
    obtain ⟨k, v⟩ := p
    simp only [List.map_cons, List.mem_cons, not_or] at h
    simpa [lookupQ, Ne.symm h.1] using ih h.2

lemma lookupQ_isSome {points : List (ℚ × ℚ)} {k : ℚ}
    (h : k ∈ points.map Prod.fst) : ∃ v, lookupQ points k = some v := by
  induction points with
  | nil => simp at h
  | cons p rest ih =>
    obtain ⟨k', v'⟩ := p
    by_cases hk : k' = k
    · exact ⟨v', by simp [lookupQ, hk]⟩
    · simp only [List.map_cons, List.mem_cons] at h
      rcases h with h | h
      · exact absurd h.symm hk
      · obtain ⟨v, hv⟩ := ih h
        exact ⟨v, by simpa [lookupQ, hk] using hv⟩

lemma lookupQ_eq_some {points : List (ℚ × ℚ)} {k v : ℚ}
    (hnd : (points.map Prod.fst).Nodup) (h : (k, v) ∈ points) :
    lookupQ points k = some v := by
  induction points with
  | nil => simp at h
  | cons p rest ih =>
    obtain ⟨k', v'⟩ := p
    simp only [List.map_cons, List.nodup_cons] at hnd
    rcases List.mem_cons.mp h with h | h
    · obtain ⟨rfl, rfl⟩ := Prod.mk.injEq .. ▸ h
      simp [lookupQ]
    · have hk : k' ≠ k := by
        rintro rfl
        exact hnd.1 (List.mem_map.mpr ⟨(k', v), h, rfl⟩)
      simpa [lookupQ, hk] using ih hnd.2 h

lemma list_max_eq_none {l : List ℚ} : list_max l = none ↔ l = [] := by
  cases l with
  | nil => simp [list_max]
  | cons x rest =>
    simp only [list_max]
    cases list_max rest <;> simp

lemma list_max_spec : ∀ {l : List ℚ} {m : ℚ}, list_max l = some m →
    m ∈ l ∧ ∀ x ∈ l, x ≤ m := by
  intro l
  induction l with
  | nil => intro m h; simp [list_max] at h
  | cons x rest ih =>
    intro m h
    simp only [list_max] at h
    cases hr : list_max rest with
    | none =>
      rw [hr] at h
      obtain rfl : x = m := by simpa using h
      have : rest = [] := list_max_eq_none.mp hr
      subst this
      simp
    | some m' =>
      rw [hr] at h
      obtain rfl : max x m' = m := by simpa using h
      obtain ⟨hmem, hbound⟩ := ih hr
      constructor
      · rcases max_choice x m' with hm | hm <;> rw [hm]
        · exact List.mem_cons_self x rest
        · exact List.mem_cons_of_mem x hmem
      · intro y hy
        rcases List.mem_cons.mp hy with rfl | hy
        · exact le_max_left _ _
        · exact le_trans (hbound y hy) (le_max_right _ _)

lemma list_min_eq_none {l : List ℚ} : list_min l = none ↔ l = [] := by
  cases l with
  | nil => simp [list_min]
  | cons x rest =>
    simp only [list_min]
    cases list_min rest <;> simp

lemma list_min_spec : ∀ {l : List ℚ} {m : ℚ}, list_min l = some m →
    m ∈ l ∧ ∀ x ∈ l, m ≤ x := by
  intro l
  induction l with
  | nil => intro m h; simp [list_min] at h
  | cons x rest ih =>
    intro m h
    simp only [list_min] at h
    cases hr : list_min rest with
    | none =>
      rw [hr] at h
      obtain rfl : x = m := by simpa using h
      have : rest = [] := list_min_eq_none.mp hr
      subst this
      simp
    | some m' =>
      rw [hr] at h
      obtain rfl : min x m' = m := by simpa using h
      obtain ⟨hmem, hbound⟩ := ih hr
      constructor
      · rcases min_choice x m' with hm | hm <;> rw [hm]
        · exact List.mem_cons_self x rest
        · exact List.mem_cons_of_mem x hmem
      · intro y hy
        rcases List.mem_cons.mp hy with rfl | hy
        · exact min_le_left _ _
        · exact le_trans (min_le_right _ _) (hbound y hy)

lemma sorted_le_getLast : ∀ {l : List ℚ}, l.Sorted (· ≤ ·) →
    ∀ (hne : l ≠ []), ∀ x ∈ l, x ≤ l.getLast hne := by
  intro l
  induction l with
  | nil => intro _ hne; exact absurd rfl hne
  | cons a t ih =>
    intro hs hne x hx
    rcases List.sorted_cons.mp hs with ⟨ha, ht⟩
    cases t with
    | nil =>
      obtain rfl : x = a := by simpa using hx
      simp [List.getLast]
    | cons b t' =>
      have htne : (b :: t') ≠ [] := List.cons_ne_nil b t'
      rw [List.getLast_cons htne]
      rcases List.mem_cons.mp hx with rfl | hx
      · exact le_trans (ha _ (List.getLast_mem htne)) (le_refl _)
      · exact ih ht htne x hx

lemma getLast?_eq_of_max {l : List ℚ} (hs : l.Sorted (· ≤ ·)) {m : ℚ}
    (hm : m ∈ l) (hmax : ∀ x ∈ l, x ≤ m) : l.getLast? = some m := by
  have hne : l ≠ [] := List.ne_nil_of_mem hm
  rw [List.getLast?_eq_getLast l hne]
  have h1 : l.getLast hne ≤ m := hmax _ (List.getLast_mem hne)
  have h2 : m ≤ l.getLast hne := sorted_le_getLast hs hne m hm
  rw [le_antisymm h1 h2]

lemma mem_dropLast_iff {l : List ℚ} (hnd : l.Nodup) (hne : l ≠ []) :
    ∀ x, x ∈ l.dropLast ↔ x ∈ l ∧ x ≠ l.getLast hne := by
  intro x
  have hsplit : l.dropLast ++ [l.getLast hne] = l := List.dropLast_append_getLast hne
  have hnd' : (l.dropLast ++ [l.getLast hne]).Nodup := hsplit.symm ▸ hnd
  have hnotmem : l.getLast hne ∉ l.dropLast := by
    intro hmem
    exact (List.disjoint_of_nodup_append hnd') hmem (List.mem_singleton_self _)
  constructor
  · intro hx
    refine ⟨by rw [← hsplit]; exact List.mem_append_left _ hx, ?_⟩
    rintro rfl
    exact hnotmem hx
  · rintro ⟨hx, hneq⟩
    rw [← hsplit] at hx
    rcases List.mem_append.mp hx with hx | hx
    · exact hx
    · exact absurd (List.mem_singleton.mp hx) hneq

/-! ## Characterisation of `combine_sources` -/

lemma day_sum_isSome_iff {sources : List (List ℚ)} {i : ℕ} :
    (day_sum sources i).isSome ↔ ∀ s ∈ sources, i < s.length := by
  induction sources with
  | nil => simp [day_sum]
  | cons s rest ih =>
    simp only [day_sum, List.mem_cons]
    constructor
    · intro h
      cases hg : s.get? i with
      | none => rw [hg] at h; simp at h
      | some v =>
        cases hr : day_sum rest i with
        | none => rw [hg, hr] at h; simp at h
        | some acc =>
          have hmem : ∀ t ∈ rest, i < t.length := ih.mp (by rw [hr]; rfl)
          intro t ht
          rcases ht with rfl | ht
          · exact List.get?_eq_some.mp hg |>.1
          · exact hmem t ht
    · intro h
      have hg : s.get? i = some (s.getD i 0) := by
        rw [List.getD_eq_getElem?_getD, List.get?_eq_getElem?,
          List.getElem?_eq_getElem (h s (Or.inl rfl))]
        rfl
      have hr : (day_sum rest i).isSome := ih.mpr (fun t ht => h t (Or.inr ht))
      obtain ⟨acc, hacc⟩ := Option.isSome_iff_exists.mp hr
      rw [hg, hacc]
      rfl

lemma day_sum_eq_some {sources : List (List ℚ)} {i : ℕ}
    (h : ∀ s ∈ sources, i < s.length) :
    day_sum sources i = some ((sources.map (fun s => s.getD i 0)).sum) := by
  induction sources with
  | nil => rfl
  | cons s rest ih =>
    have hg : s.get? i = some (s.getD i 0) := by
      rw [List.getD_eq_getElem?_getD, List.get?_eq_getElem?,
        List.getElem?_eq_getElem (h s (List.mem_cons_self s rest))]
      rfl
    have hr := ih (fun t ht => h t (List.mem_cons_of_mem s ht))
    simp only [day_sum]
    rw [hg, hr]
    simp only [List.map_cons, List.sum_cons]

lemma combine_days_eq_some {sources : List (List ℚ)} : ∀ {is : List ℕ},
    (∀ i ∈ is, ∀ s ∈ sources, i < s.length) →
    combine_days sources is =
      some (is.map (fun i => (sources.map (fun s => s.getD i 0)).sum)) := by
  intro is
  induction is with
  | nil => intro _; rfl
  | cons i rest ih =>
    intro h
    have h1 := day_sum_eq_some (h i (List.mem_cons_self i rest))
    have h2 := ih (fun j hj => h j (List.mem_cons_of_mem i hj))
    simp [combine_days, h1, h2]

lemma combine_days_isSome_iff {sources : List (List ℚ)} : ∀ {is : List ℕ},
    (combine_days sources is).isSome ↔ ∀ i ∈ is, (day_sum sources i).isSome := by
  intro is
  induction is with
  | nil => simp [combine_days]
  | cons i rest ih =>
    simp only [combine_days, List.mem_cons]
    constructor
    · intro h
      cases hd : day_sum sources i with
      | none => rw [hd] at h; simp at h
      | some v =>
        cases hr : combine_days sources rest with
        | none => rw [hd, hr] at h; simp at h
        | some out =>
          have := ih.mp (by rw [hr]; rfl)
          intro j hj
          rcases hj with rfl | hj
          · rw [hd]; rfl
          · exact this j hj
    · intro h
      obtain ⟨v, hv⟩ := Option.isSome_iff_exists.mp (h i (Or.inl rfl))
      obtain ⟨out, hout⟩ := Option.isSome_iff_exists.mp
        (ih.mpr (fun j hj => h j (Or.inr hj)))
      rw [hv, hout]
      rfl

lemma combine_sources_of_le {s0 : List ℚ} {rest : List (List ℚ)}
    (h : ∀ s ∈ rest, s0.length ≤ s.length) :
    combine_sources (s0 :: rest) =
      some ((List.range s0.length).map
        (fun i => (((s0 :: rest)).map (fun s => s.getD i 0)).sum)) := by
  rw [combine_sources]
  exact combine_days_eq_some (by
    intro i hi s hs
    have hi' : i < s0.length := List.mem_range.mp hi
    rcases List.mem_cons.mp hs with rfl | hs
    · exact hi'
    · exact lt_of_lt_of_le hi' (h s hs))

lemma combine_sources_isSome_iff {s0 : List ℚ} {rest : List (List ℚ)} :
    (combine_sources (s0 :: rest)).isSome ↔ ∀ s ∈ rest, s0.length ≤ s.length := by
  rw [combine_sources, combine_days_isSome_iff]
  constructor
  · intro h s hs
    by_contra hlt
    push_neg at hlt
    have := day_sum_isSome_iff.mp
      (h s.length (List.mem_range.mpr hlt))
    exact lt_irrefl s.length (this s (List.mem_cons_of_mem s0 hs))
  · intro h i hi
    refine day_sum_isSome_iff.mpr ?_
    intro s hs
    have hi' : i < s0.length := List.mem_range.mp hi
    rcases List.mem_cons.mp hs with rfl | hs
    · exact hi'
    · exact lt_of_lt_of_le hi' (h s hs)

/-! ## Characterisation of the two non-trivial branches of `linear_retention` -/

lemma linear_retention_extrapolate_aux {points : List (ℚ × ℚ)} {day d1 d2 r1 r2 : ℚ}
    (hnd : (points.map Prod.fst).Nodup)
    (h1 : (d1, r1) ∈ points) (h2 : (d2, r2) ∈ points)
    (h12 : d1 < d2)
    (hmax : ∀ k ∈ points.map Prod.fst, k ≤ d2)
    (hsecond : ∀ k ∈ points.map Prod.fst, k ≠ d2 → k ≤ d1)
    (hday1 : ¬ day ≤ 1) (hday : d2 < day) :
    linear_retention day points =
      some (max 0 (r2 + (r2 - r1) / (d2 - d1) * (day - d2))) := by
  set keys := points.map Prod.fst with hkeys
  set l' := List.insertionSort (· ≤ ·) keys with hl'
  have hperm : l'.Perm keys := List.perm_insertionSort _ keys
  have hsorted : l'.Sorted (· ≤ ·) := List.sorted_insertionSort _ keys
  have hd2k : d2 ∈ keys := List.mem_map.mpr ⟨(d2, r2), h2, rfl⟩
  have hd1k : d1 ∈ keys := List.mem_map.mpr ⟨(d1, r1), h1, rfl⟩
  have hd2l : d2 ∈ l' := hperm.mem_iff.mpr hd2k
  have hlookup : lookupQ points day = none := by
    refine lookupQ_eq_none (fun hmem => ?_)
    exact absurd hday (not_lt.mpr (hmax day hmem))
  have hlast : l'.getLast? = some d2 :=
    getLast?_eq_of_max hsorted hd2l (fun x hx => hmax x (hperm.mem_iff.mp hx))
  have hl'ne : l' ≠ [] := List.ne_nil_of_mem hd2l
  have hgetLast : l'.getLast hl'ne = d2 := by
    have h := List.getLast?_eq_getLast l' hl'ne
    rw [hlast] at h
    exact (Option.some_inj.mp h).symm
  have hnd' : l'.Nodup := hperm.symm.nodup hnd
  have hd1drop : d1 ∈ l'.dropLast := by
    rw [mem_dropLast_iff hnd' hl'ne, hgetLast]
    exact ⟨hperm.mem_iff.mpr hd1k, ne_of_lt h12⟩
  have hsorted' : l'.dropLast.Sorted (· ≤ ·) :=
    List.Pairwise.sublist (List.dropLast_sublist l') hsorted
  have hdrop : l'.dropLast.getLast? = some d1 := by
    refine getLast?_eq_of_max hsorted' hd1drop (fun x hx => ?_)
    rw [mem_dropLast_iff hnd' hl'ne, hgetLast] at hx
    exact hsecond x (hperm.mem_iff.mp hx.1) hx.2
  have hr1 : lookupQ points d1 = some r1 := lookupQ_eq_some hnd h1
  have hr2 : lookupQ points d2 = some r2 := lookupQ_eq_some hnd h2
  rw [linear_retention, if_neg hday1, hlookup, ← hkeys, ← hl']
  simp only [hlast, if_pos hday, hdrop, hr1, hr2]

lemma linear_retention_interpolate_aux {points : List (ℚ × ℚ)} {day d1 d2 r1 r2 : ℚ}
    (hnd : (points.map Prod.fst).Nodup)
    (h1 : (d1, r1) ∈ points) (h2 : (d2, r2) ∈ points)
    (hlt1 : d1 < day) (hlt2 : day < d2)
    (hday1 : ¬ day ≤ 1)
    (hnokey : day ∉ points.map Prod.fst)
    (hadj : ∀ k ∈ points.map Prod.fst, k ≤ d1 ∨ d2 ≤ k) :
    linear_retention day points =
      some (r1 + (r2 - r1) / (d2 - d1) * (day - d1)) := by
  set keys := points.map Prod.fst with hkeys
  set l' := List.insertionSort (· ≤ ·) keys with hl'
  have hperm : l'.Perm keys := List.perm_insertionSort _ keys
  have hsorted : l'.Sorted (· ≤ ·) := List.sorted_insertionSort _ keys
  have hd2k : d2 ∈ keys := List.mem_map.mpr ⟨(d2, r2), h2, rfl⟩
  have hd1k : d1 ∈ keys := List.mem_map.mpr ⟨(d1, r1), h1, rfl⟩
  have hd2l : d2 ∈ l' := hperm.mem_iff.mpr hd2k
  have hd1l : d1 ∈ l' := hperm.mem_iff.mpr hd1k
  have hlookup : lookupQ points day = none := lookupQ_eq_none hnokey
  have hl'ne : l' ≠ [] := List.ne_nil_of_mem hd2l
  have hlast : l'.getLast? = some (l'.getLast hl'ne) := List.getLast?_eq_getLast l' hl'ne
  have hnotlt : ¬ l'.getLast hl'ne < day := by
    have : d2 ≤ l'.getLast hl'ne := sorted_le_getLast hsorted hl'ne d2 hd2l
    exact not_lt.mpr (le_trans (le_of_lt hlt2) this)
  have hmaxfilter : list_max (l'.filter (fun d => d < day)) = some d1 := by
    have hd1f : d1 ∈ l'.filter (fun d => d < day) :=
      List.mem_filter.mpr ⟨hd1l, by simpa using hlt1⟩
    cases hmf : list_max (l'.filter (fun d => d < day)) with
    | none => exact absurd (list_max_eq_none.mp hmf ▸ hd1f) (List.not_mem_nil d1)
    | some p =>
      obtain ⟨hpf, hpbound⟩ := list_max_spec hmf
      obtain ⟨hpl, hplt⟩ := List.mem_filter.mp hpf
      have hplt : p < day := by simpa using hplt
      have hple : p ≤ d1 := by
        rcases hadj p (hperm.mem_iff.mp hpl) with h | h
        · exact h
        · exact absurd (lt_of_lt_of_le hlt2 h) (not_lt.mpr (le_of_lt hplt))
      have hd1le : d1 ≤ p := hpbound d1 hd1f
      rw [le_antisymm hple hd1le]
  have hminfilter : list_min (l'.filter (fun d => day < d)) = some d2 := by
    have hd2f : d2 ∈ l'.filter (fun d => day < d) :=
      List.mem_filter.mpr ⟨hd2l, by simpa using hlt2⟩
    cases hmf : list_min (l'.filter (fun d => day < d)) with
    | none => exact absurd (list_min_eq_none.mp hmf ▸ hd2f) (List.not_mem_nil d2)
    | some q =>
      obtain ⟨hqf, hqbound⟩ := list_min_spec hmf
      obtain ⟨hql, hqlt⟩ := List.mem_filter.mp hqf
      have hqlt : day < q := by simpa using hqlt
      have hqge : d2 ≤ q := by
        rcases hadj q (hperm.mem_iff.mp hql) with h | h
        · exact absurd (lt_trans hlt1 hqlt) (not_lt.mpr h)
        · exact h
      have hqle : q ≤ d2 := hqbound d2 hd2f
      rw [le_antisymm hqle hqge]
  have hr1 : lookupQ points d1 = some r1 := lookupQ_eq_some hnd h1
  have hr2 : lookupQ points d2 = some r2 := lookupQ_eq_some hnd h2
  rw [linear_retention, if_neg hday1, hlookup, ← hkeys, ← hl']
  simp only [hlast, if_neg hnotlt, hmaxfilter, hminfilter, hr1, hr2]

/-! ## Claim theorems -/

/-- Claim C1: `simulate_dau` returns a DAU series of the same length as the
install series; the entry for calendar day `t` (1-based) equals the sum over
install-days `s` from `1` to `t` of `installs[s-1] * retention(t - s + 1)`;
an empty install series yields an empty DAU series. -/
theorem simulate_dau_spec (installs : List ℚ) (retention_fn : ℕ → ℚ) :
    (simulate_dau installs retention_fn).length = installs.length ∧
    simulate_dau [] retention_fn = [] ∧
    ∀ t : ℕ, 1 ≤ t → t ≤ installs.length →
      (simulate_dau installs retention_fn).getD (t - 1) 0 =
        ∑ s in Finset.Icc 1 t, installs.getD (s - 1) 0 * retention_fn (t - s + 1) := by
  refine ⟨by simp [simulate_dau], rfl, ?_⟩
  intro t h1 h2
  have hlt : t - 1 < installs.length := by omega
  have ht : t - 1 + 1 = t := by omega
  rw [simulate_dau, getD_map_range _ hlt, ht, range_map_sum]
  rw [← Nat.Ico_succ_right, Finset.sum_Ico_eq_sum_range, Nat.succ_sub_one]
  refine Finset.sum_congr rfl (fun i hi => ?_)
  have hi' : i < t := Finset.mem_range.mp hi
  have e1 : 1 + i - 1 = i := by omega
  have e2 : t - (1 + i) + 1 = t - i := by omega
  rw [e1, e2]

/-- Witness for C1 at a concrete input. -/
theorem simulate_dau_spec_witness :
    (1 : ℕ) ≤ 2 ∧ (2 : ℕ) ≤ ([2, 3] : List ℚ).length ∧
    (simulate_dau [2, 3] (fun a => (a : ℚ))).getD (2 - 1) 0 =
      ∑ s in Finset.Icc 1 2, ([2, 3] : List ℚ).getD (s - 1) 0 * ((2 - s + 1 : ℕ) : ℚ) :=
  ⟨by norm_num, by norm_num,
    (simulate_dau_spec [2, 3] (fun a => (a : ℚ))).2.2 2 (by norm_num) (by norm_num)⟩

/-- Claim C2: `simulate_revenue` on equal-length series returns a series of
the same length whose entry at index `i` is
`installs[i] * rate * arppu + dau[i] * ad_impressions_per_dau * ecpm / 1000`,
where `rate` is the base purchase rate plus the absolute sale boost exactly
when a sale window is present and `start_day ≤ i+1 ≤ end_day` (the boost is
additive). -/
theorem simulate_revenue_spec (variant : VariantConfig) (installs dau : List ℚ)
    (sale_period : Option (ℤ × ℤ)) (sale_boost_abs arppu : ℚ)
    (hlen : installs.length = dau.length) :
    ∃ out, simulate_revenue variant installs dau sale_period sale_boost_abs arppu
        = some out ∧
      out.length = dau.length ∧
      ∀ i < dau.length, out.getD i 0 =
        installs.getD i 0 *
          (variant.base_purchase_rate +
            (match sale_period with
             | some (start_day, end_day) =>
               if start_day ≤ (i : ℤ) + 1 ∧ (i : ℤ) + 1 ≤ end_day then
                 sale_boost_abs
               else 0
             | none => 0)) * arppu
        + dau.getD i 0 * variant.ad_impressions_per_dau * variant.ecpm / 1000 := by
  rw [simulate_revenue, if_pos hlen]
  refine ⟨_, rfl, by simp, ?_⟩
  intro i hi
  rw [getD_map_range _ hi]
  rcases sale_period with _ | ⟨start_day, end_day⟩
  · dsimp only
    ring
  · dsimp only
    split_ifs with hwin <;> ring

/-- Witness for C2 at a concrete input. -/
theorem simulate_revenue_spec_witness :
    ∃ out, simulate_revenue ⟨"A", 3/100, 10, 2⟩ [100] [100]
        (some (1, 4)) (1/100) 5 = some out ∧
      out.length = ([100] : List ℚ).length ∧
      ∀ i < ([100] : List ℚ).length, out.getD i 0 =
        ([100] : List ℚ).getD i 0 *
          ((3 : ℚ)/100 +
            (match (some ((1 : ℤ), (4 : ℤ)) : Option (ℤ × ℤ)) with
             | some (start_day, end_day) =>
               if start_day ≤ (i : ℤ) + 1 ∧ (i : ℤ) + 1 ≤ end_day then
                 (1 : ℚ)/100
               else 0
             | none => 0)) * 5
        + ([100] : List ℚ).getD i 0 * 2 * 10 / 1000 :=
  simulate_revenue_spec ⟨"A", 3/100, 10, 2⟩ [100] [100] (some (1, 4)) (1/100) 5 rfl

/-- Claim C7: `simulate_revenue` fails (the assertion raises) on series of
different lengths, producing no output. -/
theorem simulate_revenue_length_mismatch (variant : VariantConfig)
    (installs dau : List ℚ) (sale_period : Option (ℤ × ℤ))
    (sale_boost_abs arppu : ℚ) (h : installs.length ≠ dau.length) :
    simulate_revenue variant installs dau sale_period sale_boost_abs arppu
      = none := by
  rw [simulate_revenue, if_neg h]

/-- Witness for C7 at a concrete input. -/
theorem simulate_revenue_length_mismatch_witness :
    simulate_revenue ⟨"A", 3/100, 10, 2⟩ [1] [] none 0 5 = none :=
  simulate_revenue_length_mismatch ⟨"A", 3/100, 10, 2⟩ [1] [] none 0 5 (by simp)

/-- Counterexample to C3: two input series of different lengths (1 and 2)
for which `combine_sources` succeeds and returns a result instead of
failing with a length mismatch — the extra entry of the longer series is
silently ignored. -/
theorem combine_sources_counterexample :
    ([(1 : ℚ)] : List ℚ).length ≠ ([1, 2] : List ℚ).length ∧
    combine_sources [[(1 : ℚ)], [1, 2]] = some [2] := by
  constructor
  · simp
  · simp [combine_sources, combine_days, day_sum, List.range_succ]
    norm_num

/-- Claim C3 (amended): `combine_sources` with zero input series returns the
empty series; with one or more series it fails (raises, producing no result)
exactly when some input series is shorter than the first one — series longer
than the first are silently truncated, not rejected — and on success the
result has the length of the first series. -/
theorem combine_sources_amended :
    combine_sources ([] : List (List ℚ)) = some [] ∧
    (∀ (s0 : List ℚ) (rest : List (List ℚ)),
      (combine_sources (s0 :: rest)).isSome ↔ ∀ s ∈ rest, s0.length ≤ s.length) ∧
    (∀ (s0 : List ℚ) (rest : List (List ℚ)) (out : List ℚ),
      combine_sources (s0 :: rest) = some out → out.length = s0.length) := by
  refine ⟨rfl, fun s0 rest => combine_sources_isSome_iff, ?_⟩
  intro s0 rest out h
  have hle : ∀ s ∈ rest, s0.length ≤ s.length :=
    combine_sources_isSome_iff.mp (by rw [h]; rfl)
  rw [combine_sources_of_le hle] at h
  obtain rfl := (Option.some_inj.mp h).symm
  simp

/-- Witness for the amended C3 at concrete inputs. -/
theorem combine_sources_amended_witness :
    combine_sources ([] : List (List ℚ)) = some [] ∧
    (combine_sources [[(1 : ℚ)], [1, 2]]).isSome :=
  ⟨combine_sources_amended.1,
    (combine_sources_amended.2.1 [1] [[1, 2]]).mpr (by
      intro s hs
      rw [List.mem_singleton.mp hs]
      simp)⟩

/-- Counterexample to C5: a table whose key `1` carries the value `1/2`;
`linear_retention 1` returns `1`, not the stored value, so the exact-key
clause of the claim fails for keys `≤ 1`. -/
theorem linear_retention_key_counterexample :
    ((1 : ℚ), (1 : ℚ)/2) ∈ [((1 : ℚ), (1 : ℚ)/2)] ∧
    linear_retention 1 [((1 : ℚ), (1 : ℚ)/2)] = some 1 ∧
    (1 : ℚ)/2 ≠ 1 := by
  refine ⟨List.mem_singleton_self _, ?_, by norm_num⟩
  norm_num [linear_retention]

/-- Claim C5 (amended): `linear_retention day` returns `1.0` for every
`day ≤ 1` regardless of table contents (the install-day convention takes
precedence over stored keys), and returns the stored value exactly for every
key strictly greater than `1`. -/
theorem linear_retention_keys_amended (points : List (ℚ × ℚ)) :
    (∀ day : ℚ, day ≤ 1 → linear_retention day points = some 1) ∧
    (∀ day r : ℚ, 1 < day → (day, r) ∈ points →
      (points.map Prod.fst).Nodup → linear_retention day points = some r) := by
  constructor
  · intro day h
    rw [linear_retention, if_pos h]
  · intro day r hday hmem hnd
    rw [linear_retention, if_neg (not_le.mpr hday)]
    simp only [lookupQ_eq_some hnd hmem]

/-- Witness for the amended C5 at concrete inputs. -/
theorem linear_retention_keys_amended_witness :
    linear_retention 0 [((2 : ℚ), 1/3)] = some 1 ∧
    linear_retention 2 [((2 : ℚ), 1/3)] = some (1/3) :=
  ⟨(linear_retention_keys_amended [((2 : ℚ), 1/3)]).1 0 (by norm_num),
    (linear_retention_keys_amended [((2 : ℚ), 1/3)]).2 2 (1/3) (by norm_num)
      (List.mem_singleton_self _) (by simp)⟩

/-- Counterexample to C9: `linear_retention` does not fail on the
non-integer day `5/2`; it returns the interpolated value `9/20` for the
table `{1: 1, 2: 1/2, 4: 3/10}`. -/
theorem linear_retention_noninteger_counterexample :
    ((5 : ℚ)/2).den ≠ 1 ∧ (1 : ℚ) < 5/2 ∧
    linear_retention ((5 : ℚ)/2) [((1 : ℚ), 1), (2, 1/2), (4, 3/10)]
      = some (9/20) := by
  refine ⟨by norm_num, by norm_num, ?_⟩
  norm_num [linear_retention, lookupQ, list_max, list_min,
    List.insertionSort, List.orderedInsert]

/-- Claim C9 (amended): `linear_retention` does not reject non-integer day
arguments: for every day strictly greater than `1` — integer or not — it
returns a retention value whenever the table has at least two keys and at
least one key lies below the day (it fails only on too-small tables or
when no key lies below a sub-maximal day, independently of integrality). -/
theorem linear_retention_noninteger_amended (points : List (ℚ × ℚ)) (day : ℚ)
    (hday : 1 < day)
    (hbelow : ∃ k ∈ points.map Prod.fst, k < day)
    (hcard : 2 ≤ (points.map Prod.fst).length) :
    (linear_retention day points).isSome = true := by
  have hday1 : ¬ day ≤ 1 := not_le.mpr hday
  set keys := points.map Prod.fst with hkeys
  set l' := List.insertionSort (· ≤ ·) keys with hl'
  have hperm : l'.Perm keys := List.perm_insertionSort _ keys
  have hlen : l'.length = keys.length := hperm.length_eq
  have hl'ne : l' ≠ [] := by
    intro h
    rw [h] at hlen
    simp at hlen
    omega
  by_cases hkey : day ∈ keys
  · obtain ⟨v, hv⟩ := lookupQ_isSome hkey
    rw [linear_retention, if_neg hday1, hv]
    rfl
  · have hlookup : lookupQ points day = none := lookupQ_eq_none hkey
    have hlast := List.getLast?_eq_getLast l' hl'ne
    rw [linear_retention, if_neg hday1, hlookup, ← hkeys, ← hl']
    by_cases hgt : l'.getLast hl'ne < day
    · have hdropne : l'.dropLast ≠ [] := by
        intro h
        have hld : l'.dropLast.length = l'.length - 1 := List.length_dropLast l'
        rw [h] at hld
        simp at hld
        omega
      have hdrop := List.getLast?_eq_getLast l'.dropLast hdropne
      obtain ⟨v1, hv1⟩ := lookupQ_isSome (hperm.mem_iff.mp
        ((List.dropLast_sublist l').subset (List.getLast_mem hdropne)))
      obtain ⟨v2, hv2⟩ := lookupQ_isSome (hperm.mem_iff.mp (List.getLast_mem hl'ne))
      simp only [hlast, if_pos hgt, hdrop, hv1, hv2]
      rfl
    · obtain ⟨k, hkmem, hk⟩ := hbelow
      have hkl : k ∈ l' := hperm.mem_iff.mpr hkmem
      have hkf : k ∈ l'.filter (fun d => d < day) :=
        List.mem_filter.mpr ⟨hkl, by simpa using hk⟩
      have hlt : day < l'.getLast hl'ne := by
        rcases lt_or_eq_of_le (not_lt.mp hgt) with h | h
        · exact h
        · exact absurd (hperm.mem_iff.mp (h ▸ List.getLast_mem hl'ne)) hkey
      have hgf : l'.getLast hl'ne ∈ l'.filter (fun d => day < d) :=
        List.mem_filter.mpr ⟨List.getLast_mem hl'ne, by simpa using hlt⟩
      cases hmf : list_max (l'.filter (fun d => d < day)) with
      | none => exact absurd (list_max_eq_none.mp hmf ▸ hkf) (List.not_mem_nil k)
      | some p =>
        cases hnf : list_min (l'.filter (fun d => day < d)) with
        | none =>
          exact absurd (list_min_eq_none.mp hnf ▸ hgf) (List.not_mem_nil _)
        | some q =>
          have hpmem : p ∈ keys :=
            hperm.mem_iff.mp (List.mem_filter.mp (list_max_spec hmf).1).1
          have hqmem : q ∈ keys :=
            hperm.mem_iff.mp (List.mem_filter.mp (list_min_spec hnf).1).1
          obtain ⟨v1, hv1⟩ := lookupQ_isSome hpmem
          obtain ⟨v2, hv2⟩ := lookupQ_isSome hqmem
          simp only [hlast, if_neg hgt, hmf, hnf, hv1, hv2]
          rfl

/-- Witness for the amended C9 at the non-integer day `5/2`. -/
theorem linear_retention_noninteger_amended_witness :
    (linear_retention ((5 : ℚ)/2) [((1 : ℚ), 1), (2, 1/2), (4, 3/10)]).isSome
      = true :=
  linear_retention_noninteger_amended [((1 : ℚ), 1), (2, 1/2), (4, 3/10)]
    ((5 : ℚ)/2) (by norm_num) ⟨2, by simp, by norm_num⟩ (by simp)

/-- Claim C4: for a point table (keys ≥ 1, at least two of them) and a day
strictly beyond the largest key, `linear_retention` returns
`r2 + ((r2 - r1)/(d2 - d1)) * (day - d2)` clamped below at `0`, where
`d1 < d2` are the two largest keys with values `r1, r2`; in particular the
extrapolated result is never negative. -/
theorem linear_retention_extrapolation (points : List (ℚ × ℚ))
    (day d1 d2 r1 r2 : ℚ)
    (hnd : (points.map Prod.fst).Nodup)
    (hpos : ∀ k ∈ points.map Prod.fst, 1 ≤ k)
    (h1 : (d1, r1) ∈ points) (h2 : (d2, r2) ∈ points)
    (h12 : d1 < d2)
    (hmax : ∀ k ∈ points.map Prod.fst, k ≤ d2)
    (hsecond : ∀ k ∈ points.map Prod.fst, k ≠ d2 → k ≤ d1)
    (hday : d2 < day) :
    ∃ v, linear_retention day points = some v ∧
      v = max 0 (r2 + (r2 - r1) / (d2 - d1) * (day - d2)) ∧ 0 ≤ v := by
  have hday1 : ¬ day ≤ 1 := by
    have h := hpos d2 (List.mem_map.mpr ⟨(d2, r2), h2, rfl⟩)
    push_neg
    linarith
  exact ⟨_,
    linear_retention_extrapolate_aux hnd h1 h2 h12 hmax hsecond hday1 hday,
    rfl, le_max_left 0 _⟩

/-- Witness for C4 at a concrete input with a steeply negative slope, where
the clamp is active. -/
theorem linear_retention_extrapolation_witness :
    ∃ v, linear_retention 5 [((1 : ℚ), 1), (2, 1/2)] = some v ∧
      v = max 0 ((1 : ℚ)/2 + ((1 : ℚ)/2 - 1) / (2 - 1) * (5 - 2)) ∧ 0 ≤ v :=
  linear_retention_extrapolation [((1 : ℚ), 1), (2, 1/2)] 5 1 2 1 (1/2)
    (by norm_num) (by intro k hk; fin_cases hk <;> norm_num)
    (by simp) (by simp) (by norm_num)
    (by intro k hk; fin_cases hk <;> norm_num)
    (by intro k hk; fin_cases hk <;> norm_num) (by norm_num)

/-- Claim C6: for a day strictly between two adjacent known keys
`d1 < day < d2` (day > 1, day not itself a key), the value returned by
`linear_retention` lies between `min r1 r2` and `max r1 r2`. -/
theorem linear_retention_interpolation (points : List (ℚ × ℚ))
    (day d1 d2 r1 r2 : ℚ)
    (hnd : (points.map Prod.fst).Nodup)
    (h1 : (d1, r1) ∈ points) (h2 : (d2, r2) ∈ points)
    (hlt1 : d1 < day) (hlt2 : day < d2)
    (hday : 1 < day)
    (hnokey : day ∉ points.map Prod.fst)
    (hadj : ∀ k ∈ points.map Prod.fst, k ≤ d1 ∨ d2 ≤ k) :
    ∃ v, linear_retention day points = some v ∧
      min r1 r2 ≤ v ∧ v ≤ max r1 r2 := by
  have hd : 0 < d2 - d1 := by linarith
  have ht0 : 0 ≤ (day - d1) / (d2 - d1) := div_nonneg (by linarith) hd.le
  have ht1 : (day - d1) / (d2 - d1) ≤ 1 := (div_le_one hd).mpr (by linarith)
  have hv : r1 + (r2 - r1) / (d2 - d1) * (day - d1)
      = r1 + (r2 - r1) * ((day - d1) / (d2 - d1)) := by ring
  refine ⟨_, linear_retention_interpolate_aux hnd h1 h2 hlt1 hlt2
    (not_le.mpr hday) hnokey hadj, ?_, ?_⟩
  · rw [hv]
    rcases le_total r1 r2 with h | h
    · rw [min_eq_left h]
      nlinarith [mul_nonneg (sub_nonneg.mpr h) ht0]
    · rw [min_eq_right h]
      nlinarith [mul_nonneg (sub_nonneg.mpr h) (sub_nonneg.mpr ht1)]
  · rw [hv]
    rcases le_total r1 r2 with h | h
    · rw [max_eq_right h]
      nlinarith [mul_nonneg (sub_nonneg.mpr h) (sub_nonneg.mpr ht1)]
    · rw [max_eq_left h]
      nlinarith [mul_nonneg (sub_nonneg.mpr h) ht0]

/-- Witness for C6 at a concrete input. -/
theorem linear_retention_interpolation_witness :
    ∃ v, linear_retention 3 [((2 : ℚ), 1), (4, 0)] = some v ∧
      min (1 : ℚ) 0 ≤ v ∧ v ≤ max (1 : ℚ) 0 :=
  linear_retention_interpolation [((2 : ℚ), 1), (4, 0)] 3 2 4 1 0
    (by norm_num) (by simp) (by simp) (by norm_num) (by norm_num) (by norm_num)
    (by norm_num) (by intro k hk; fin_cases hk <;> norm_num)

/-- Claim C8: on equal-length input series `combine_sources` is commutative
(any permutation of the sources yields the identical result) and associative
(combining a nested group first, then the rest, equals combining all series
at once). -/
theorem combine_sources_comm_assoc :
    (∀ (n : ℕ) (l l' : List (List ℚ)), (∀ s ∈ l, s.length = n) → l.Perm l' →
      combine_sources l = combine_sources l') ∧
    (∀ (n : ℕ) (l1 l2 : List (List ℚ)), l1 ≠ [] →
      (∀ s ∈ l1, s.length = n) → (∀ s ∈ l2, s.length = n) →
      ∃ t1, combine_sources l1 = some t1 ∧
        combine_sources (t1 :: l2) = combine_sources (l1 ++ l2)) := by
  constructor
  · intro n l l' hlen hperm
    cases l with
    | nil => rw [hperm.symm.eq_nil]
    | cons s0 rest =>
      cases l' with
      | nil => exact absurd hperm.eq_nil (List.cons_ne_nil s0 rest)
      | cons s0' rest' =>
        have hlen' : ∀ s ∈ s0' :: rest', s.length = n :=
          fun s hs => hlen s (hperm.symm.subset hs)
        have h0 : s0.length = n := hlen s0 (List.mem_cons_self s0 rest)
        have h0' : s0'.length = n := hlen' s0' (List.mem_cons_self s0' rest')
        rw [combine_sources_of_le (fun s hs => by
              rw [h0, hlen s (List.mem_cons_of_mem s0 hs)]),
            combine_sources_of_le (fun s hs => by
              rw [h0', hlen' s (List.mem_cons_of_mem s0' hs)]),
            h0, h0']
        congr 1
        refine List.map_congr_left (fun i hi => ?_)
        exact (hperm.map (fun s => s.getD i 0)).sum_eq
  · intro n l1 l2 hne h1 h2
    cases l1 with
    | nil => exact absurd rfl hne
    | cons s0 rest =>
      have h0 : s0.length = n := h1 s0 (List.mem_cons_self s0 rest)
      have hle1 : ∀ s ∈ rest, s0.length ≤ s.length := fun s hs => by
        rw [h0, h1 s (List.mem_cons_of_mem s0 hs)]
      refine ⟨_, combine_sources_of_le hle1, ?_⟩
      set t1 := (List.range s0.length).map
        (fun i => ((s0 :: rest).map (fun s => s.getD i 0)).sum) with ht1
      have ht1len : t1.length = n := by rw [ht1]; simp [h0]
      have hle2 : ∀ s ∈ l2, t1.length ≤ s.length := fun s hs => by
        rw [ht1len, h2 s hs]
      have hle3 : ∀ s ∈ rest ++ l2, s0.length ≤ s.length := by
        intro s hs
        rcases List.mem_append.mp hs with hs | hs
        · exact hle1 s hs
        · rw [h0, h2 s hs]
      rw [combine_sources_of_le hle2,
        show combine_sources ((s0 :: rest) ++ l2)
            = combine_sources (s0 :: (rest ++ l2)) from rfl,
        combine_sources_of_le hle3, ht1len, h0]
      congr 1
      refine List.map_congr_left (fun i hi => ?_)
      have hi' : i < n := List.mem_range.mp hi
      simp only [List.map_cons, List.sum_cons, List.map_append, List.sum_append]
      have hti : t1.getD i 0 = ((s0 :: rest).map (fun s => s.getD i 0)).sum := by
        rw [ht1]
        exact getD_map_range _ (by rw [h0]; exact hi')
      rw [hti]
      simp only [List.map_cons, List.sum_cons]
      ring

/-- Witness for C8 at concrete inputs. -/
theorem combine_sources_comm_assoc_witness :
    combine_sources [[(1 : ℚ), 2], [3, 4]]
        = combine_sources [[(3 : ℚ), 4], [1, 2]] ∧
    ∃ t1, combine_sources [[(1 : ℚ), 2], [3, 4]] = some t1 ∧
      combine_sources (t1 :: [[(5 : ℚ), 6]]) =
        combine_sources ([[(1 : ℚ), 2], [3, 4]] ++ [[(5 : ℚ), 6]]) :=
  ⟨combine_sources_comm_assoc.1 2 [[1, 2], [3, 4]] [[3, 4], [1, 2]]
      (by intro s hs; fin_cases hs <;> rfl) (List.Perm.swap [3, 4] [1, 2] []),
    combine_sources_comm_assoc.2 2 [[1, 2], [3, 4]] [[5, 6]] (by simp)
      (by intro s hs; fin_cases hs <;> rfl)
      (by intro s hs; fin_cases hs; rfl)⟩

lemma getD_zipWith_add : ∀ (x y : List ℚ) (i : ℕ), i < x.length → i < y.length →
    (List.zipWith (· + ·) x y).getD i 0 = x.getD i 0 + y.getD i 0
  | [], _, _, h, _ => absurd h (by simp)
  | _ :: _, [], _, _, h => absurd h (by simp)
  | a :: x, b :: y, 0, _, _ => rfl
  | a :: x, b :: y, (i+1), h1, h2 => by
    simpa using getD_zipWith_add x y i (by simpa using h1) (by simpa using h2)

/-- Claim C10: `simulate_dau` is linear in the install series: combining the
DAU of two equal-length install series equals simulating the elementwise sum
of the two series. -/
theorem simulate_dau_linear (x y : List ℚ) (retention_fn : ℕ → ℚ)
    (hlen : x.length = y.length) :
    combine_sources [simulate_dau x retention_fn, simulate_dau y retention_fn]
      = some (simulate_dau (List.zipWith (· + ·) x y) retention_fn) := by
  have hx : (simulate_dau x retention_fn).length = x.length := by
    simp [simulate_dau]
  have hy : (simulate_dau y retention_fn).length = y.length := by
    simp [simulate_dau]
  have hz : (List.zipWith (· + ·) x y).length = x.length := by
    rw [List.length_zipWith, hlen, min_self]
  rw [combine_sources_of_le (by
    intro s hs
    rw [List.mem_singleton.mp hs, hx, hy, hlen])]
  congr 1
  rw [hx]
  conv_rhs => rw [simulate_dau]
  rw [hz]
  refine List.map_congr_left (fun i hi => ?_)
  have hi' : i < x.length := List.mem_range.mp hi
  simp only [List.map_cons, List.map_nil, List.sum_cons, List.sum_nil]
  rw [simulate_dau, simulate_dau, getD_map_range _ hi',
    getD_map_range _ (show i < y.length by omega), add_zero,
    range_map_sum, range_map_sum, range_map_sum, ← Finset.sum_add_distrib]
  refine Finset.sum_congr rfl (fun s hs => ?_)
  have hs' : s < i + 1 := Finset.mem_range.mp hs
  rw [getD_zipWith_add x y s (by omega) (by omega)]
  ring

/-- Witness for C10 at a concrete input. -/
theorem simulate_dau_linear_witness :
    combine_sources [simulate_dau [1, 2] (fun a => (a : ℚ)),
        simulate_dau [3, 4] (fun a => (a : ℚ))]
      = some (simulate_dau (List.zipWith (· + ·) [1, 2] [3, 4])
          (fun a => (a : ℚ))) :=
  simulate_dau_linear [1, 2] [3, 4] (fun a => (a : ℚ)) rfl

end VertigoCase
